import Mathlib

/-!
Verification model of the Medical-Chatbot RAG service.

Text is modelled as `List Char`.  JavaScript numbers are modelled as real
numbers (`ℝ`); timestamps (`Date`) as natural numbers supplied by the caller;
`randomUUID` as caller-supplied fresh identifiers.  Asynchronous methods of
the in-memory store are modelled in state-passing style: each operation takes
the store and returns the (possibly unchanged) store together with its result.
-/

namespace MedChat

/-! ### Character classes used by the chunker regex `[.!?]+\s+` -/

/-- Sentence-terminal punctuation, the class `[.!?]` of the split regex. -/
def isSentencePunct (c : Char) : Bool := c = '.' || c = '!' || c = '?'

/-- Whitespace as matched by `\s` (ASCII subset) and removed by `trim`. -/
def isWhite (c : Char) : Bool := c = ' ' || c = '\t' || c = '\n' || c = '\r'

/-- Model of `String.prototype.trim`: drop whitespace from both ends. -/
def trim (l : List Char) : List Char :=
  ((l.dropWhile isWhite).reverse.dropWhile isWhite).reverse

/-! ### `text.split(/[.!?]+\s+/)`

A left-to-right scan.  A match of the separator regex is a maximal run of
sentence punctuation followed by at least one whitespace character (the run of
whitespace is consumed greedily).  A punctuation run not followed by
whitespace is ordinary text.  `ScanMode` tracks whether the scan is inside a
candidate punctuation run or inside the whitespace tail of a match. -/

inductive ScanMode where
  | normal : ScanMode
  | punctRun (run : List Char) : ScanMode
  | white : ScanMode

/-- Scanner for the split; `acc` is the current field, reversed. -/
def splitGo : List Char → List Char → ScanMode → List (List Char)
  | [], acc, .normal => [acc.reverse]
  | [], acc, .punctRun run => [acc.reverse ++ run.reverse]
  | [], acc, .white => [acc.reverse]
  | c :: rest, acc, .normal =>
    if isSentencePunct c then splitGo rest acc (.punctRun [c])
    else splitGo rest (c :: acc) .normal
  | c :: rest, acc, .punctRun run =>
    if isSentencePunct c then splitGo rest acc (.punctRun (c :: run))
    else if isWhite c then acc.reverse :: splitGo rest [] .white
    else splitGo rest (c :: (run ++ acc)) .normal
  | c :: rest, acc, .white =>
    if isWhite c then splitGo rest acc .white
    else if isSentencePunct c then splitGo rest acc (.punctRun [c])
    else splitGo rest (c :: acc) .normal

/-- `text.split(/[.!?]+\s+/)` from `chunkText`. -/
def splitSentences (text : List Char) : List (List Char) :=
  splitGo text [] .normal

/-! ### The chunking loop of `chunkText` -/

/-- State of the accumulation loop in `chunkText`. -/
structure ChunkState where
  chunks : List (List Char)
  currentChunk : List Char

/-- Model of `str.slice(-n)` (for `n = 0`, JavaScript returns the whole
string). -/
def sliceLast (l : List Char) (n : Nat) : List Char :=
  if n = 0 then l else l.drop (l.length - n)

/-- One iteration of the `for (const sentence of sentences)` loop of
`chunkText`. -/
def chunkStep (chunkSize overlap : Nat) (st : ChunkState) (sentence : List Char) :
    ChunkState :=
  let t := trim sentence
  if t.isEmpty then st
  else if chunkSize < st.currentChunk.length + t.length then
    if st.currentChunk.isEmpty then
      { chunks := st.chunks ++ [t], currentChunk := [] }
    else
      { chunks := st.chunks ++ [trim st.currentChunk],
        currentChunk := sliceLast st.currentChunk overlap ++ ' ' :: t }
  else
    { chunks := st.chunks,
      currentChunk :=
        st.currentChunk ++ (if st.currentChunk.isEmpty then t else ' ' :: t) }

/-- The loop of `chunkText` run over all sentences. -/
def chunkLoop (text : List Char) (chunkSize overlap : Nat) : ChunkState :=
  (splitSentences text).foldl (chunkStep chunkSize overlap) ⟨[], []⟩

/-- Chunks of `chunkText` before the final `length > 50` filter: the loop
output plus the final non-empty buffer. -/
def chunksBeforeFilter (text : List Char) (chunkSize overlap : Nat) :
    List (List Char) :=
  let st := chunkLoop text chunkSize overlap
  if (trim st.currentChunk).isEmpty then st.chunks
  else st.chunks ++ [trim st.currentChunk]

/-- `chunkText(text, chunkSize = 1000, overlap = 200)` from the document
processor. -/
def chunkText (text : List Char) (chunkSize : Nat := 1000) (overlap : Nat := 200) :
    List (List Char) :=
  (chunksBeforeFilter text chunkSize overlap).filter (fun c => 50 < c.length)

/-- Single-space join of the non-empty trimmed sentences, the value the
accumulation loop builds when no chunk boundary is ever crossed. -/
def sentenceJoin : List Char → List (List Char) → List Char
  | c, [] => c
  | c, s :: ss =>
    let t := trim s
    if t.isEmpty then sentenceJoin c ss
    else if c.isEmpty then sentenceJoin t ss
    else sentenceJoin (c ++ ' ' :: t) ss

/-! ### Predicates used to reason about the chunker -/

/-- A character list neither starts nor ends with whitespace. -/
def noWhiteEdges (l : List Char) : Prop :=
  (∀ c, l.head? = some c → isWhite c = false) ∧
  (∀ c, l.getLast? = some c → isWhite c = false)

/-- `pat` occurs contiguously inside `l`. -/
def SegIn (pat l : List Char) : Prop :=
  ∃ u v, l = u ++ pat ++ v

/-- `t` occurs contiguously in a finished chunk or in the running buffer of
the chunking loop state. -/
def CoveredIn (t : List Char) (st : ChunkState) : Prop :=
  (∃ ch ∈ st.chunks, SegIn t ch) ∨ SegIn t st.currentChunk

/-! ### Data model (`@shared/schema`) -/

/-- `DocumentMetadata` of the schema; `processedAt` is an ISO timestamp,
modelled as the clock value. -/
structure DocMetadata where
  fileName : List Char
  fileId : String
  totalChunks : Nat
  processedAt : Nat

/-- `DocumentChunk` rows: `embedding` and `metadata` are nullable. -/
structure DocumentChunk where
  id : String
  documentId : String
  content : List Char
  embedding : Option (List ℝ)
  metadata : Option DocMetadata
  chunkIndex : Nat

/-- `InsertDocumentChunk` (the row minus the generated `id`). -/
structure InsertDocumentChunk where
  documentId : String
  content : List Char
  embedding : Option (List ℝ)
  metadata : Option DocMetadata
  chunkIndex : Nat

/-- `Citation` of the schema (`confidence` and `page` are optional). -/
structure Citation where
  source : List Char
  excerpt : List Char
  confidence : Option ℝ
  page : Option Nat

/-- `Message` rows of the chat store. -/
structure Message where
  id : String
  conversationId : String
  role : List Char
  content : List Char
  citations : Option (List Citation)
  timestamp : Nat

/-- `InsertMessage` (the row minus generated `id` and `timestamp`). -/
structure InsertMessage where
  conversationId : String
  role : List Char
  content : List Char
  citations : Option (List Citation)

/-- `Conversation` rows. -/
structure Conversation where
  id : String
  title : Option (List Char)
  createdAt : Nat
  updatedAt : Nat
deriving DecidableEq

/-- `InsertConversation` (the row minus generated `id` and timestamps). -/
structure InsertConversation where
  title : Option (List Char)

/-- `Partial<Conversation>`: every field optional, as in the update payload. -/
structure ConversationPatch where
  id : Option String := none
  title : Option (Option (List Char)) := none
  createdAt : Option Nat := none
  updatedAt : Option Nat := none

/-! ### JavaScript `Map` modelled as an insertion-ordered association list -/

/-- `Map.prototype.set`: replace in place if the key exists, else append. -/
def mapSet {V : Type} (m : List (String × V)) (k : String) (v : V) :
    List (String × V) :=
  if (m.lookup k).isSome then
    m.map (fun p => if p.1 = k then (k, v) else p)
  else m ++ [(k, v)]

/-! ### Cosine similarity (`MemStorage.cosineSimilarity`) -/

/-- The `dotProduct` accumulator of the loop. -/
def dotList (a b : List ℝ) : ℝ := ((a.zip b).map fun p => p.1 * p.2).sum

/-- The `normA`/`normB` accumulators of the loop. -/
def normSqList (a : List ℝ) : ℝ := (a.map fun x => x * x).sum

/-- `MemStorage.cosineSimilarity`: 0 on length mismatch or zero norm, else
dot product over the product of Euclidean norms. -/
noncomputable def cosineSimilarity (a b : List ℝ) : ℝ :=
  if a.length ≠ b.length then 0
  else if normSqList a = 0 ∨ normSqList b = 0 then 0
  else dotList a b / (Real.sqrt (normSqList a) * Real.sqrt (normSqList b))

/-! ### The in-memory store (`MemStorage`) -/

/-- The three private maps of `MemStorage`. -/
structure MemStorage where
  messages : List (String × Message)
  conversations : List (String × Conversation)
  documentChunks : List (String × DocumentChunk)

/-- The empty store built by the constructor. -/
def MemStorage.empty : MemStorage := ⟨[], [], []⟩

/-- `createMessage`: assign a fresh id and the current time, insert. -/
def MemStorage.createMessage (st : MemStorage) (freshId : String) (now : Nat)
    (m : InsertMessage) : MemStorage × Message :=
  let message : Message :=
    { id := freshId, conversationId := m.conversationId, role := m.role,
      content := m.content, citations := m.citations, timestamp := now }
  ({ st with messages := mapSet st.messages freshId message }, message)

/-- `getMessagesByConversation`: filter by conversation, sort by ascending
timestamp. -/
def MemStorage.getMessagesByConversation (st : MemStorage)
    (conversationId : String) : MemStorage × List Message :=
  (st,
    ((st.messages.map Prod.snd).filter
        (fun m => m.conversationId == conversationId)).mergeSort
      (fun a b => decide (a.timestamp ≤ b.timestamp)))

/-- `createConversation`: assign a fresh id and both timestamps, insert. -/
def MemStorage.createConversation (st : MemStorage) (freshId : String)
    (now : Nat) (c : InsertConversation) : MemStorage × Conversation :=
  let conversation : Conversation :=
    { id := freshId, title := c.title, createdAt := now, updatedAt := now }
  ({ st with conversations := mapSet st.conversations freshId conversation },
    conversation)

/-- `getConversation`: lookup, `undefined` when absent. -/
def MemStorage.getConversation (st : MemStorage) (id : String) :
    MemStorage × Option Conversation :=
  (st, st.conversations.lookup id)

/-- `updateConversation`: throw when the id is absent, else spread the patch
over the existing record and stamp `updatedAt` with the current time. -/
def MemStorage.updateConversation (st : MemStorage) (id : String)
    (data : ConversationPatch) (now : Nat) :
    Except String (MemStorage × Conversation) :=
  match st.conversations.lookup id with
  | none => .error ("Conversation " ++ id ++ " not found")
  | some existing =>
    let updated : Conversation :=
      { id := data.id.getD existing.id,
        title := data.title.getD existing.title,
        createdAt := data.createdAt.getD existing.createdAt,
        updatedAt := now }
    .ok ({ st with conversations := mapSet st.conversations id updated },
      updated)

/-- The chunk row created by `createDocumentChunk` from an insert payload. -/
def insertedChunk (freshId : String) (c : InsertDocumentChunk) : DocumentChunk :=
  { id := freshId, documentId := c.documentId, content := c.content,
    embedding := c.embedding, metadata := c.metadata,
    chunkIndex := c.chunkIndex }

/-- `createDocumentChunk`: assign a fresh id, insert. -/
def MemStorage.createDocumentChunk (st : MemStorage) (freshId : String)
    (c : InsertDocumentChunk) : MemStorage × DocumentChunk :=
  ({ st with
      documentChunks := mapSet st.documentChunks freshId (insertedChunk freshId c) },
    insertedChunk freshId c)

/-- `getDocumentChunks`: filter by document, sort by ascending chunk index. -/
def MemStorage.getDocumentChunks (st : MemStorage) (documentId : String) :
    MemStorage × List DocumentChunk :=
  (st,
    ((st.documentChunks.map Prod.snd).filter
        (fun c => c.documentId == documentId)).mergeSort
      (fun a b => decide (a.chunkIndex ≤ b.chunkIndex)))

/-- Core of `searchChunksByEmbedding`: keep chunks with a non-empty
embedding, score each against the query, sort descending, take the limit. -/
noncomputable def searchCore (chunks : List DocumentChunk)
    (queryEmbedding : List ℝ) (limit : Nat) : List DocumentChunk :=
  let withScores :=
    (chunks.filter fun ch =>
        match ch.embedding with
        | none => false
        | some e => 0 < e.length).map
      fun ch => (ch, cosineSimilarity queryEmbedding (ch.embedding.getD []))
  ((withScores.mergeSort (fun x y => decide (y.2 ≤ x.2))).take limit).map
    Prod.fst

/-- `searchChunksByEmbedding` with its default limit of 5. -/
noncomputable def MemStorage.searchChunksByEmbedding (st : MemStorage)
    (queryEmbedding : List ℝ) (limit : Nat := 5) :
    MemStorage × List DocumentChunk :=
  (st, searchCore (st.documentChunks.map Prod.snd) queryEmbedding limit)

/-- `getAllChunks`: every stored chunk, in insertion order. -/
def MemStorage.getAllChunks (st : MemStorage) :
    MemStorage × List DocumentChunk :=
  (st, st.documentChunks.map Prod.snd)

/-! ### RAG service (`ragService.ts`) -/

/-- The external providers: embedding, batch completion and streaming
completion.  Failures of a provider call are `Except.error`; the streaming
completion yields the tokens emitted before an optional failure. -/
structure Providers where
  embed : List Char → Except String (List ℝ)
  complete : List Char → List Char → Except String (List Char)
  completeStream : List Char → List Char → List (List Char) × Option String

/-- The fixed fallback answer returned when retrieval finds no chunks. -/
def fallbackMessage : List Char :=
  ("I don" ++ String.singleton (Char.ofNat 39) ++
    "t have any medical documents indexed yet to answer your question. " ++
    "Please upload medical datasets to Google Drive and index them first, " ++
    "or I can provide general medical information based on my training.").toList

/-- Citation built from one retrieved chunk in `queryRAG` and
`queryRAGStream` (an empty file name is falsy in JavaScript, hence also
replaced by the placeholder source). -/
noncomputable def mkCitation (chunk : DocumentChunk) : Citation :=
  { source :=
      match chunk.metadata with
      | some m => if m.fileName = [] then "Unknown Source".toList else m.fileName
      | none => "Unknown Source".toList,
    excerpt :=
      chunk.content.take 200 ++
        (if 200 < chunk.content.length then "...".toList else []),
    confidence := some (0.85 : ℝ),
    page := some (chunk.chunkIndex + 1) }

/-- One `[Source i: fileName]\n{content}` entry of the context string. -/
def contextEntry (idx : Nat) (chunk : DocumentChunk) : List Char :=
  "[Source ".toList ++ (toString (idx + 1)).toList ++ ": ".toList ++
    (match chunk.metadata with
     | some m => if m.fileName = [] then "Unknown".toList else m.fileName
     | none => "Unknown".toList) ++
    "]".toList ++ ['\n'] ++ chunk.content

/-- The context string: labelled chunk contents joined by the separator. -/
def buildContext (chunks : List DocumentChunk) : List Char :=
  List.intercalate "\n\n---\n\n".toList (chunks.mapIdx contextEntry)

/-- Result of the batch query. -/
structure RAGResponse where
  answer : List Char
  citations : List Citation

/-- `queryRAG`: embed the question, retrieve the top 5 chunks, and either
answer with the fallback (empty retrieval) or call the completion provider. -/
noncomputable def queryRAG (p : Providers) (st : MemStorage)
    (question : List Char) : Except String RAGResponse :=
  match p.embed question with
  | .error e => .error e
  | .ok questionEmbedding =>
    let relevantChunks := (st.searchChunksByEmbedding questionEmbedding 5).2
    if relevantChunks.isEmpty then
      .ok { answer := fallbackMessage, citations := [] }
    else
      match p.complete question (buildContext relevantChunks) with
      | .error e => .error e
      | .ok answer =>
        .ok { answer := answer, citations := relevantChunks.map mkCitation }

/-- Events yielded by the streaming query generator. -/
inductive RagEvent where
  | citations (data : List Citation) : RagEvent
  | token (data : List Char) : RagEvent

/-- Outcome of draining the streaming generator: the events yielded, and the
error that interrupted it, if any. -/
structure StreamResult where
  events : List RagEvent
  streamError : Option String

/-- `queryRAGStream`: yield the citations first; with empty retrieval stream
the fallback message character by character, otherwise stream the completion
provider's tokens. -/
noncomputable def queryRAGStream (p : Providers) (st : MemStorage)
    (question : List Char) : StreamResult :=
  match p.embed question with
  | .error e => { events := [], streamError := some e }
  | .ok questionEmbedding =>
    let relevantChunks := (st.searchChunksByEmbedding questionEmbedding 5).2
    let citations := relevantChunks.map mkCitation
    if relevantChunks.isEmpty then
      { events :=
          .citations citations ::
            fallbackMessage.map (fun c => .token [c]),
        streamError := none }
    else
      let out := p.completeStream question (buildContext relevantChunks)
      { events := .citations citations :: out.1.map .token,
        streamError := out.2 }

/-- The extraction result consumed by `indexDocument` (produced by the
document processor from the downloaded file). -/
structure ProcessedDoc where
  fileId : String
  fileName : List Char
  content : List Char
  chunks : List (List Char)

/-- The insert payload `indexDocument` builds for the `i`-th extracted
chunk: its content, its batch embedding, the shared metadata, and
`chunkIndex = i`. -/
def indexInsert (documentId : String) (processed : ProcessedDoc)
    (embeddings : List (List ℝ)) (now : Nat) (i : Nat) : InsertDocumentChunk :=
  { documentId := documentId
    content := processed.chunks.getD i []
    embedding := embeddings[i]?
    metadata := some
      { fileName := processed.fileName, fileId := processed.fileId,
        totalChunks := processed.chunks.length, processedAt := now }
    chunkIndex := i }

/-- `indexDocument` after extraction and batch embedding: store the `i`-th
extracted chunk with `chunkIndex = i` under a fresh document id. -/
def indexDocument (st : MemStorage) (documentId : String)
    (chunkIds : Nat → String) (processed : ProcessedDoc)
    (embeddings : List (List ℝ)) (now : Nat) : MemStorage :=
  (List.range processed.chunks.length).foldl
    (fun acc i =>
      (acc.createDocumentChunk (chunkIds i)
        (indexInsert documentId processed embeddings now i)).1)
    st

/-- Chunk indices stored for one document id, in store order. -/
def chunkIndicesFor (st : MemStorage) (docId : String) : List Nat :=
  ((st.documentChunks.map Prod.snd).filter
      (fun c => c.documentId == docId)).map (fun c => c.chunkIndex)

/-! ### Association-list lemmas -/

theorem lookup_mapSet_self {V : Type} (m : List (String × V)) (k : String)
    (v : V) (h : (m.lookup k).isSome) : (mapSet m k v).lookup k = some v := by
  unfold mapSet
  rw [if_pos h]
  induction m with
  | nil => simp at h
  | cons p m ih =>
    obtain ⟨k', v'⟩ := p
    by_cases hk : k' = k
    · subst hk
      simp [List.lookup_cons]
    · have hbeq : (k == k') = false := by
        simp [beq_iff_eq]
        exact fun hkk => hk hkk.symm
      simp only [List.map_cons, if_neg hk, List.lookup_cons, hbeq,
        Bool.false_eq_true, if_false]
      rw [List.lookup_cons, hbeq] at h
      simp only [Bool.false_eq_true, if_false] at h
      exact ih h

/-! ### Claim C7: citation construction -/

/-- C7: the citation built from a retrieved chunk has as excerpt the first
200 characters of the content with an ellipsis appended exactly when the
content is longer than 200 characters, a fixed placeholder confidence of
0.85 independent of the similarity score, and page equal to the chunk index
plus one. -/
theorem citation_build_spec (chunk : DocumentChunk) :
    (chunk.content.length ≤ 200 → (mkCitation chunk).excerpt = chunk.content) ∧
    (200 < chunk.content.length →
      (mkCitation chunk).excerpt = chunk.content.take 200 ++ "...".toList) ∧
    (mkCitation chunk).confidence = some (0.85 : ℝ) ∧
    (mkCitation chunk).page = some (chunk.chunkIndex + 1) := by
  refine ⟨fun h => ?_, fun h => ?_, rfl, rfl⟩
  · show chunk.content.take 200 ++
        (if 200 < chunk.content.length then "...".toList else []) = chunk.content
    rw [if_neg (not_lt.2 h), List.append_nil, List.take_of_length_le h]
  · show chunk.content.take 200 ++
        (if 200 < chunk.content.length then "...".toList else []) = _
    rw [if_pos h]

set_option maxRecDepth 4000 in
theorem citation_build_spec_witness :
    (mkCitation ⟨"id1", "doc1", "short excerpt".toList, none, none, 3⟩).excerpt
      = "short excerpt".toList ∧
    (mkCitation ⟨"id2", "doc1", List.replicate 201 'a', none, none, 0⟩).excerpt
      = List.replicate 200 'a' ++ "...".toList := by
  constructor
  · exact (citation_build_spec _).1 (by decide)
  · have h := (citation_build_spec
      ⟨"id2", "doc1", List.replicate 201 'a', none, none, 0⟩).2.1
      (by decide)
    rw [h, List.take_replicate]
    norm_num

/-! ### Claim C8: updating a conversation -/

/-- C8: updating an absent conversation id fails with a not-found error and
changes nothing (the error branch returns no store); updating a present id
succeeds and stamps the stored record's update timestamp with the current
clock value, leaving messages and document chunks untouched. -/
theorem updateConversation_spec (st : MemStorage) (id : String)
    (data : ConversationPatch) (now : Nat) :
    (st.conversations.lookup id = none →
      st.updateConversation id data now =
        .error ("Conversation " ++ id ++ " not found")) ∧
    (∀ existing, st.conversations.lookup id = some existing →
      ∃ st' updated,
        st.updateConversation id data now = .ok (st', updated) ∧
        updated.updatedAt = now ∧
        st'.conversations.lookup id = some updated ∧
        st'.messages = st.messages ∧
        st'.documentChunks = st.documentChunks) := by
  constructor
  · intro h
    simp [MemStorage.updateConversation, h]
  · intro existing h
    unfold MemStorage.updateConversation
    rw [h]
    exact ⟨_, _, rfl, rfl, lookup_mapSet_self _ _ _ (by rw [h]; rfl), rfl, rfl⟩

theorem updateConversation_spec_witness :
    (MemStorage.mk [] [("c1", ⟨"c1", none, 0, 0⟩)] []).updateConversation
        "zz" {} 7 = .error ("Conversation " ++ "zz" ++ " not found") ∧
    ∃ st' updated,
      (MemStorage.mk [] [("c1", ⟨"c1", none, 0, 0⟩)] []).updateConversation
          "c1" {} 7 = .ok (st', updated) ∧ updated.updatedAt = 7 := by
  constructor
  · exact (updateConversation_spec _ "zz" {} 7).1 (by decide)
  · obtain ⟨st', u, h1, h2, -, -, -⟩ :=
      (updateConversation_spec (MemStorage.mk [] [("c1", ⟨"c1", none, 0, 0⟩)] [])
        "c1" {} 7).2 ⟨"c1", none, 0, 0⟩ (by decide)
    exact ⟨st', u, h1, h2⟩

/-! ### Claim C10: read operations leave the store unchanged -/

/-- C10: the read operations return the store unchanged, and listing the
messages of a conversation that has none yields the empty list rather than
failing. -/
theorem read_ops_frame (st : MemStorage) (q : List ℝ) (k : Nat)
    (d i cid : String) :
    (st.searchChunksByEmbedding q k).1 = st ∧
    st.getAllChunks.1 = st ∧
    (st.getDocumentChunks d).1 = st ∧
    (st.getConversation i).1 = st ∧
    (st.getMessagesByConversation cid).1 = st ∧
    ((∀ m ∈ st.messages, (m.2).conversationId ≠ cid) →
      (st.getMessagesByConversation cid).2 = []) := by
  refine ⟨rfl, rfl, rfl, rfl, rfl, fun h => ?_⟩
  have hfil : (st.messages.map Prod.snd).filter
      (fun m => m.conversationId == cid) = [] := by
    rw [List.filter_eq_nil_iff]
    intro m hm
    obtain ⟨p, hp, rfl⟩ := List.mem_map.1 hm
    simpa using h p hp
  simp [MemStorage.getMessagesByConversation, hfil]

theorem read_ops_frame_witness :
    (MemStorage.empty.getMessagesByConversation "c").2 = [] ∧
    (MemStorage.empty.getConversation "c").1 = MemStorage.empty :=
  ⟨(read_ops_frame MemStorage.empty [] 0 "d" "i" "c").2.2.2.2.2
      (by simp [MemStorage.empty]),
    (read_ops_frame MemStorage.empty [] 0 "d" "i" "c").2.2.2.1⟩

/-! ### Claim C2: similarity search -/

/-- C2: the search returns at most `k` chunks, sorted in descending order of
cosine similarity to the query, and never returns a chunk whose embedding is
absent or empty. -/
theorem search_spec (st : MemStorage) (q : List ℝ) (k : Nat) :
    ((st.searchChunksByEmbedding q k).2).length ≤ k ∧
    ((st.searchChunksByEmbedding q k).2).Pairwise
      (fun c d => cosineSimilarity q (d.embedding.getD []) ≤
        cosineSimilarity q (c.embedding.getD [])) ∧
    (∀ c ∈ (st.searchChunksByEmbedding q k).2,
      ∃ e, c.embedding = some e ∧ 0 < e.length) := by
  have hres : (st.searchChunksByEmbedding q k).2 =
      (((((st.documentChunks.map Prod.snd).filter fun ch =>
            match ch.embedding with
            | none => false
            | some e => 0 < e.length).map
          (fun ch => (ch, cosineSimilarity q (ch.embedding.getD [])))).mergeSort
          (fun x y => decide (y.2 ≤ x.2))).take k).map Prod.fst := rfl
  have hform : ∀ p ∈ (((st.documentChunks.map Prod.snd).filter fun ch =>
        match ch.embedding with
        | none => false
        | some e => 0 < e.length).map
      (fun ch => (ch, cosineSimilarity q (ch.embedding.getD [])))).mergeSort
      (fun x y => decide (y.2 ≤ x.2)),
      p.2 = cosineSimilarity q (p.1.embedding.getD []) := by
    intro p hp
    obtain ⟨ch, -, rfl⟩ := List.mem_map.1 (List.mem_mergeSort.1 hp)
    rfl
  refine ⟨?_, ?_, ?_⟩
  · rw [hres, List.length_map]
    exact List.length_take_le _ _
  · have hsorted := @List.sorted_mergeSort (DocumentChunk × ℝ)
      (fun x y : DocumentChunk × ℝ => decide (y.2 ≤ x.2))
      (fun a b c hab hbc => by
        simp only [decide_eq_true_eq] at *
        exact le_trans hbc hab)
      (fun a b => by rcases le_total a.2 b.2 with h | h <;> simp [h])
      (((st.documentChunks.map Prod.snd).filter fun ch =>
          match ch.embedding with
          | none => false
          | some e => 0 < e.length).map
        (fun ch => (ch, cosineSimilarity q (ch.embedding.getD []))))
    have htake := hsorted.sublist (List.take_sublist k _)
    rw [hres, List.pairwise_map]
    refine htake.imp_of_mem ?_
    intro a b ha hb hr
    have ha' := hform a (List.take_subset _ _ ha)
    have hb' := hform b (List.take_subset _ _ hb)
    simp only [decide_eq_true_eq] at hr
    rw [← ha', ← hb']
    exact hr
  · intro c hc
    rw [hres] at hc
    obtain ⟨p, hp, rfl⟩ := List.mem_map.1 hc
    have hp' := List.mem_mergeSort.1 (List.take_subset _ _ hp)
    obtain ⟨ch, hch, rfl⟩ := List.mem_map.1 hp'
    have hpred := (List.mem_filter.1 hch).2
    cases hemb : ch.embedding with
    | none => rw [hemb] at hpred; simp at hpred
    | some e =>
      rw [hemb] at hpred
      simp only [decide_eq_true_eq] at hpred
      exact ⟨e, rfl, hpred⟩

/-! ### Claim C3: empty retrieval is the fallback branch, not an error -/

/-- C3: when retrieval returns zero chunks, the batch query returns the fixed
fallback answer with an empty citation list, and the streaming query emits an
empty citations event followed by the fallback message; both terminate
normally regardless of the completion provider. -/
theorem query_empty_fallback (p : Providers) (st : MemStorage)
    (question : List Char) (qe : List ℝ)
    (hemb : p.embed question = .ok qe)
    (hsearch : (st.searchChunksByEmbedding qe 5).2 = []) :
    queryRAG p st question = .ok ⟨fallbackMessage, []⟩ ∧
    queryRAGStream p st question =
      ⟨.citations [] :: fallbackMessage.map (fun c => .token [c]), none⟩ := by
  constructor
  · simp [queryRAG, hemb, hsearch]
  · simp [queryRAGStream, hemb, hsearch]

theorem query_empty_fallback_witness :
    queryRAG
        ⟨fun _ => .ok [], fun _ _ => .error "provider down",
          fun _ _ => ([], some "provider down")⟩
        MemStorage.empty "what is flu".toList = .ok ⟨fallbackMessage, []⟩ ∧
    queryRAGStream
        ⟨fun _ => .ok [], fun _ _ => .error "provider down",
          fun _ _ => ([], some "provider down")⟩
        MemStorage.empty "what is flu".toList =
      ⟨.citations [] :: fallbackMessage.map (fun c => .token [c]), none⟩ :=
  query_empty_fallback _ _ _ [] rfl
    (by simp [MemStorage.searchChunksByEmbedding, searchCore, MemStorage.empty])

/-! ### Claim C4: streaming event framing -/

/-- C4: once the question embedding succeeds, the streamed event sequence
starts with exactly one citations event carrying the full citation list,
every later event is a token event, and on the fallback path the token events
are exactly the single characters of the fallback message in order. -/
theorem stream_event_order (p : Providers) (st : MemStorage)
    (question : List Char) (qe : List ℝ)
    (hemb : p.embed question = .ok qe) :
    (queryRAGStream p st question).events.head? =
      some (.citations
        (((st.searchChunksByEmbedding qe 5).2).map mkCitation)) ∧
    (∀ e ∈ (queryRAGStream p st question).events.tail, ∃ s, e = .token s) ∧
    ((st.searchChunksByEmbedding qe 5).2 = [] →
      (queryRAGStream p st question).events =
        .citations [] :: fallbackMessage.map (fun c => .token [c])) := by
  have hred : queryRAGStream p st question =
      (if ((st.searchChunksByEmbedding qe 5).2).isEmpty then
        { events := .citations (((st.searchChunksByEmbedding qe 5).2).map mkCitation) ::
            fallbackMessage.map (fun c => .token [c]),
          streamError := none }
      else
        { events := .citations (((st.searchChunksByEmbedding qe 5).2).map mkCitation) ::
            (p.completeStream question
              (buildContext ((st.searchChunksByEmbedding qe 5).2))).1.map .token,
          streamError :=
            (p.completeStream question
              (buildContext ((st.searchChunksByEmbedding qe 5).2))).2 }) := by
    unfold queryRAGStream
    rw [hemb]
  refine ⟨?_, ?_, ?_⟩
  · rw [hred]
    split <;> rfl
  · intro e he
    rw [hred] at he
    split at he
    · simp only [List.tail_cons] at he
      obtain ⟨c, -, rfl⟩ := List.mem_map.1 he
      exact ⟨[c], rfl⟩
    · simp only [List.tail_cons] at he
      obtain ⟨s, -, rfl⟩ := List.mem_map.1 he
      exact ⟨s, rfl⟩
  · intro hsearch
    rw [hred, hsearch]
    rfl

theorem stream_event_order_witness :
    (queryRAGStream
        ⟨fun _ => .ok [], fun _ _ => .error "provider down",
          fun _ _ => ([], some "provider down")⟩
        MemStorage.empty "what is flu".toList).events.head? =
      some (.citations
        (((MemStorage.empty.searchChunksByEmbedding [] 5).2).map mkCitation)) :=
  (stream_event_order _ _ _ [] rfl).1


/-! ### Claim C6: cosine similarity -/

theorem normSqList_nonneg (a : List ℝ) : 0 ≤ normSqList a := by
  refine List.sum_nonneg ?_
  intro x hx
  obtain ⟨y, -, rfl⟩ := List.mem_map.1 hx
  exact mul_self_nonneg y

theorem dotList_nil_left (b : List ℝ) : dotList [] b = 0 := rfl

theorem dotList_nil_right (a : List ℝ) : dotList a [] = 0 := by
  cases a <;> rfl

theorem dotList_cons (x y : ℝ) (a b : List ℝ) :
    dotList (x :: a) (y :: b) = x * y + dotList a b := by
  simp [dotList, List.zip_cons_cons]

theorem normSqList_cons (x : ℝ) (a : List ℝ) :
    normSqList (x :: a) = x * x + normSqList a := by
  simp [normSqList]

theorem dotList_self (a : List ℝ) : dotList a a = normSqList a := by
  induction a with
  | nil => rfl
  | cons x a ih => rw [dotList_cons, normSqList_cons, ih]

theorem dotList_comm (a b : List ℝ) : dotList a b = dotList b a := by
  induction a generalizing b with
  | nil => rw [dotList_nil_left, dotList_nil_right]
  | cons x a ih =>
    cases b with
    | nil => rw [dotList_nil_left, dotList_nil_right]
    | cons y b => rw [dotList_cons, dotList_cons, ih, mul_comm x y]

theorem cauchy_step (x y d A B : ℝ) (hA : 0 ≤ A) (hB : 0 ≤ B)
    (hd : d ^ 2 ≤ A * B) : (x * y + d) ^ 2 ≤ (x * x + A) * (y * y + B) := by
  rcases eq_or_lt_of_le hB with hB0 | hBpos
  · have hd0 : d = 0 := by nlinarith [sq_nonneg d]
    rw [hd0, ← hB0]
    nlinarith [mul_nonneg hA (sq_nonneg y), sq_nonneg (x * y)]
  · nlinarith [sq_nonneg (x * B - y * d),
      mul_nonneg (sq_nonneg y) (sub_nonneg.2 hd),
      mul_nonneg hB (sub_nonneg.2 hd)]

theorem dotList_sq_le (a b : List ℝ) :
    (dotList a b) ^ 2 ≤ normSqList a * normSqList b := by
  induction a generalizing b with
  | nil =>
    rw [dotList_nil_left]
    have : normSqList ([] : List ℝ) = 0 := rfl
    rw [this]
    simp
  | cons x a ih =>
    cases b with
    | nil =>
      rw [dotList_nil_right]
      have : normSqList ([] : List ℝ) = 0 := rfl
      rw [this]
      simp
    | cons y b =>
      rw [dotList_cons, normSqList_cons, normSqList_cons]
      exact cauchy_step x y _ _ _ (normSqList_nonneg a) (normSqList_nonneg b)
        (ih b)

/-- C6: cosine similarity is symmetric, lies in `[-1, 1]`, equals 1 on a
vector with itself when its norm is non-zero, and is 0 whenever the lengths
differ or either vector has zero norm. -/
theorem cosineSimilarity_spec (a b : List ℝ) :
    cosineSimilarity a b = cosineSimilarity b a ∧
    -1 ≤ cosineSimilarity a b ∧ cosineSimilarity a b ≤ 1 ∧
    (normSqList a ≠ 0 → cosineSimilarity a a = 1) ∧
    (a.length ≠ b.length → cosineSimilarity a b = 0) ∧
    (normSqList a = 0 ∨ normSqList b = 0 → cosineSimilarity a b = 0) := by
  have habs : ∀ x y : List ℝ, |dotList x y| ≤
      Real.sqrt (normSqList x) * Real.sqrt (normSqList y) := by
    intro x y
    calc |dotList x y| = Real.sqrt ((dotList x y) ^ 2) := by
          rw [Real.sqrt_sq_eq_abs]
      _ ≤ Real.sqrt (normSqList x * normSqList y) :=
          Real.sqrt_le_sqrt (dotList_sq_le x y)
      _ = Real.sqrt (normSqList x) * Real.sqrt (normSqList y) :=
          Real.sqrt_mul (normSqList_nonneg x) _
  have hbounds : -1 ≤ cosineSimilarity a b ∧ cosineSimilarity a b ≤ 1 := by
    unfold cosineSimilarity
    by_cases hlen : a.length = b.length
    · rw [if_neg (by simpa using hlen)]
      by_cases hz : normSqList a = 0 ∨ normSqList b = 0
      · rw [if_pos hz]; norm_num
      · push_neg at hz
        rw [if_neg (by tauto)]
        have hx0 : 0 < normSqList a :=
          lt_of_le_of_ne (normSqList_nonneg a) (Ne.symm hz.1)
        have hy0 : 0 < normSqList b :=
          lt_of_le_of_ne (normSqList_nonneg b) (Ne.symm hz.2)
        have hden : 0 < Real.sqrt (normSqList a) * Real.sqrt (normSqList b) :=
          mul_pos (Real.sqrt_pos.2 hx0) (Real.sqrt_pos.2 hy0)
        rw [← abs_le, abs_div, abs_of_pos hden]
        exact (div_le_one hden).2 (habs a b)
    · rw [if_pos (by simpa using hlen)]; norm_num
  refine ⟨?_, hbounds.1, hbounds.2, ?_, ?_, ?_⟩
  · unfold cosineSimilarity
    by_cases hlen : a.length = b.length
    · rw [if_neg (by simpa using hlen),
        if_neg (show ¬b.length ≠ a.length by simp [hlen])]
      by_cases hz : normSqList a = 0 ∨ normSqList b = 0
      · rw [if_pos hz, if_pos hz.symm]
      · rw [if_neg hz, if_neg (fun h => hz h.symm)]
        rw [dotList_comm, mul_comm]
    · rw [if_pos (by simpa using hlen),
        if_pos (show b.length ≠ a.length from fun h => hlen h.symm)]
  · intro ha
    unfold cosineSimilarity
    rw [if_neg (by simp)]
    rw [if_neg (by tauto)]
    rw [dotList_self, Real.mul_self_sqrt (normSqList_nonneg a)]
    exact div_self ha
  · intro h
    unfold cosineSimilarity
    rw [if_pos h]
  · intro h
    unfold cosineSimilarity
    by_cases hlen : a.length = b.length
    · rw [if_neg (by simpa using hlen), if_pos h]
    · rw [if_pos (by simpa using hlen)]

theorem cosineSimilarity_spec_witness :
    cosineSimilarity [(1 : ℝ), 0] [(1 : ℝ), 0] = 1 ∧
    cosineSimilarity [(1 : ℝ)] [(1 : ℝ), 0] = 0 ∧
    cosineSimilarity [(0 : ℝ)] [(1 : ℝ)] = 0 := by
  refine ⟨(cosineSimilarity_spec [(1 : ℝ), 0] [(1 : ℝ), 0]).2.2.2.1 ?_,
    (cosineSimilarity_spec [(1 : ℝ)] [(1 : ℝ), 0]).2.2.2.2.1 (by simp),
    (cosineSimilarity_spec [(0 : ℝ)] [(1 : ℝ)]).2.2.2.2.2 (Or.inl ?_)⟩
  · rw [normSqList_cons, normSqList_cons]
    norm_num [normSqList]
  · rw [normSqList_cons]
    norm_num [normSqList]

/-! ### Claim C9: chunk indices assigned by `indexDocument` -/

theorem lookup_append_of_none {V : Type} (m1 m2 : List (String × V))
    (k : String) (h : m1.lookup k = none) :
    (m1 ++ m2).lookup k = m2.lookup k := by
  induction m1 with
  | nil => simp
  | cons p m ih =>
    obtain ⟨k', v'⟩ := p
    by_cases hk : (k == k') = true
    · rw [List.lookup_cons, hk] at h
      simp at h
    · have hk' : (k == k') = false := by
        revert hk
        cases k == k' <;> simp
      rw [List.cons_append, List.lookup_cons, hk']
      rw [List.lookup_cons, hk'] at h
      exact ih h

theorem mapSet_of_fresh {V : Type} (m : List (String × V)) (k : String)
    (v : V) (h : m.lookup k = none) : mapSet m k v = m ++ [(k, v)] := by
  unfold mapSet
  rw [h]
  rfl

theorem foldl_createDocumentChunk (ids : Nat → String)
    (f : Nat → InsertDocumentChunk) (l : List Nat) :
    ∀ st : MemStorage,
    (∀ i ∈ l, st.documentChunks.lookup (ids i) = none) →
    (∀ i ∈ l, ∀ j ∈ l, ids i = ids j → i = j) →
    l.Nodup →
    l.foldl (fun acc i => (acc.createDocumentChunk (ids i) (f i)).1) st =
      { st with
          documentChunks := st.documentChunks ++
                              l.map (fun i => (ids i, insertedChunk (ids i) (f i))) } := by
  induction l with
  | nil => intro st _ _ _; simp
  | cons i l ih =>
    intro st hfresh hinj hnd
    have hii : i ∈ i :: l := List.mem_cons_self i l
    have hstep : (st.createDocumentChunk (ids i) (f i)).1 =
        { st with
            documentChunks := st.documentChunks ++
                                [(ids i, insertedChunk (ids i) (f i))] } := by
      show ({ st with
          documentChunks := mapSet st.documentChunks (ids i)
                              (insertedChunk (ids i) (f i)) } : MemStorage) = _
      rw [mapSet_of_fresh _ _ _ (hfresh i hii)]
    rw [List.foldl_cons, hstep]
    rw [ih _ ?_ ?_ (List.Nodup.of_cons hnd)]
    · simp
    · intro j hj
      have hjl : j ∈ i :: l := List.mem_cons_of_mem i hj
      rw [lookup_append_of_none _ _ _ (hfresh j hjl)]
      have hne : ¬(ids j == ids i) = true := by
        simp only [beq_iff_eq]
        intro he
        have := hinj j hjl i hii he
        subst this
        exact (List.nodup_cons.1 hnd).1 hj
      have hne' : (ids j == ids i) = false := by
        revert hne
        cases ids j == ids i <;> simp
      rw [List.lookup_cons, hne']
      rfl
    · intro a ha b hb
      exact hinj a (List.mem_cons_of_mem i ha) b (List.mem_cons_of_mem i hb)

/-- C9: after `indexDocument`, with fresh chunk ids and a fresh document id,
the indices stored for that document are exactly `0, 1, …, n-1` in extraction
order — hence pairwise distinct and monotonically assigned — the chunks of
every other document are untouched, and the operations on messages and
conversations never change the stored document chunks. -/
theorem indexDocument_indices (st : MemStorage) (documentId : String)
    (chunkIds : Nat → String) (processed : ProcessedDoc)
    (embeddings : List (List ℝ)) (now : Nat)
    (hfresh : ∀ i ∈ List.range processed.chunks.length,
      st.documentChunks.lookup (chunkIds i) = none)
    (hinj : ∀ i ∈ List.range processed.chunks.length,
      ∀ j ∈ List.range processed.chunks.length, chunkIds i = chunkIds j → i = j)
    (hdoc : ∀ p ∈ st.documentChunks, (p.2).documentId ≠ documentId) :
    chunkIndicesFor
        (indexDocument st documentId chunkIds processed embeddings now)
        documentId = List.range processed.chunks.length ∧
    (chunkIndicesFor
        (indexDocument st documentId chunkIds processed embeddings now)
        documentId).Nodup ∧
    (∀ docId, docId ≠ documentId →
      chunkIndicesFor
          (indexDocument st documentId chunkIds processed embeddings now)
          docId = chunkIndicesFor st docId) ∧
    (∀ (st2 : MemStorage) freshId now2 m,
      ((st2.createMessage freshId now2 m).1).documentChunks =
        st2.documentChunks) ∧
    (∀ (st2 : MemStorage) freshId now2 c,
      ((st2.createConversation freshId now2 c).1).documentChunks =
        st2.documentChunks) ∧
    (∀ (st2 : MemStorage) id data now2 st' conv,
      st2.updateConversation id data now2 = .ok (st', conv) →
      st'.documentChunks = st2.documentChunks) := by
  have hfold := foldl_createDocumentChunk chunkIds
    (indexInsert documentId processed embeddings now)
    (List.range processed.chunks.length) st hfresh hinj
    (List.nodup_range _)
  have hidx : indexDocument st documentId chunkIds processed embeddings now =
      { st with
          documentChunks := st.documentChunks ++
                              (List.range processed.chunks.length).map
                                (fun i => (chunkIds i,
                                  insertedChunk (chunkIds i)
                                    (indexInsert documentId processed
                                      embeddings now i))) } := by
    unfold indexDocument
    exact hfold
  have hmain : ∀ docId : String,
      chunkIndicesFor
          (indexDocument st documentId chunkIds processed embeddings now)
          docId =
        chunkIndicesFor st docId ++
          (if docId = documentId then List.range processed.chunks.length
            else []) := by
    intro docId
    rw [hidx]
    unfold chunkIndicesFor
    rw [List.map_append, List.filter_append, List.map_append, List.map_map]
    congr 1
    by_cases hd : docId = documentId
    · subst hd
      have hsnd : ((List.range processed.chunks.length).map
          ((fun p : String × DocumentChunk => p.2) ∘
            (fun i => (chunkIds i,
              insertedChunk (chunkIds i)
                (indexInsert docId processed embeddings now i))))) =
          (List.range processed.chunks.length).map
            (fun i => insertedChunk (chunkIds i)
              (indexInsert docId processed embeddings now i)) := by
        rfl
      rw [hsnd, if_pos rfl]
      rw [List.filter_eq_self.2 ?_]
      · rw [List.map_map]
        have : ((fun c : DocumentChunk => c.chunkIndex) ∘
            (fun i => insertedChunk (chunkIds i)
              (indexInsert docId processed embeddings now i))) =
            fun i => i := rfl
        rw [this]
        exact List.map_id' _
      · intro ch hch
        obtain ⟨i, -, rfl⟩ := List.mem_map.1 hch
        exact beq_iff_eq.2 rfl
    · rw [if_neg hd]
      rw [List.filter_eq_nil_iff.2 ?_]
      · rfl
      · intro ch hch
        obtain ⟨i, -, rfl⟩ := List.mem_map.1 hch
        simp only [beq_iff_eq]
        exact fun h => hd h.symm
  refine ⟨?_, ?_, ?_, fun _ _ _ _ => rfl, fun _ _ _ _ => rfl, ?_⟩
  · rw [hmain documentId, if_pos rfl]
    have hz : chunkIndicesFor st documentId = [] := by
      unfold chunkIndicesFor
      rw [List.filter_eq_nil_iff.2 ?_]
      · rfl
      · intro ch hch
        obtain ⟨p, hp, rfl⟩ := List.mem_map.1 hch
        simpa using hdoc p hp
    rw [hz, List.nil_append]
  · rw [hmain documentId, if_pos rfl]
    have hz : chunkIndicesFor st documentId = [] := by
      unfold chunkIndicesFor
      rw [List.filter_eq_nil_iff.2 ?_]
      · rfl
      · intro ch hch
        obtain ⟨p, hp, rfl⟩ := List.mem_map.1 hch
        simpa using hdoc p hp
    rw [hz, List.nil_append]
    exact List.nodup_range _
  · intro docId hne
    rw [hmain docId, if_neg hne, List.append_nil]
  · intro st2 id data now2 st' conv h
    unfold MemStorage.updateConversation at h
    cases hl : st2.conversations.lookup id with
    | none => rw [hl] at h; cases h
    | some ex =>
      rw [hl] at h
      simp only [Except.ok.injEq, Prod.mk.injEq] at h
      rw [← h.1]

theorem indexDocument_indices_witness :
    chunkIndicesFor
        (indexDocument MemStorage.empty "doc"
          (fun i => if i = 0 then "a" else "b")
          ⟨"fid", "file.txt".toList, "xy".toList,
            ["alpha".toList, "beta".toList]⟩
          [] 0)
        "doc" = [0, 1] := by
  have h := (indexDocument_indices MemStorage.empty "doc"
    (fun i => if i = 0 then "a" else "b")
    ⟨"fid", "file.txt".toList, "xy".toList, ["alpha".toList, "beta".toList]⟩
    [] 0 (by intro i _; rfl) (by decide)
    (by intro p hp; cases hp)).1
  rw [h]
  rfl

/-! ### Lemmas about `trim` -/

theorem length_dropWhile_le (p : Char → Bool) (l : List Char) :
    (l.dropWhile p).length ≤ l.length := by
  induction l with
  | nil => simp
  | cons c rest ih =>
    cases hp : p c with
    | true => rw [List.dropWhile_cons_of_pos hp]; exact Nat.le_succ_of_le ih
    | false => rw [List.dropWhile_cons_of_neg (by simp [hp])]

theorem trim_length_le (l : List Char) : (trim l).length ≤ l.length := by
  unfold trim
  rw [List.length_reverse]
  calc ((l.dropWhile isWhite).reverse.dropWhile isWhite).length
      ≤ (l.dropWhile isWhite).reverse.length := length_dropWhile_le _ _
    _ = (l.dropWhile isWhite).length := List.length_reverse _
    _ ≤ l.length := length_dropWhile_le _ _

theorem head?_dropWhile_nonwhite (l : List Char) (c : Char)
    (h : (l.dropWhile isWhite).head? = some c) : isWhite c = false := by
  have hm := List.head?_dropWhile_not isWhite l
  rw [h] at hm
  exact hm

theorem getLast?_dropWhile_of_ne_nil (p : Char → Bool) :
    ∀ l : List Char, l.dropWhile p ≠ [] →
      (l.dropWhile p).getLast? = l.getLast? := by
  intro l
  induction l with
  | nil => intro h; simp at h
  | cons c rest ih =>
    intro h
    cases hp : p c with
    | false =>
      rw [List.dropWhile_cons_of_neg (by simp [hp])]
    | true =>
      rw [List.dropWhile_cons_of_pos hp] at h ⊢
      have hrest : rest ≠ [] := by
        intro he
        rw [he] at h
        simp at h
      rw [ih h]
      cases rest with
      | nil => exact absurd rfl hrest
      | cons d rest' => rw [List.getLast?_cons_cons]

theorem trim_noWhiteEdges (l : List Char) : noWhiteEdges (trim l) := by
  constructor
  · intro c hc
    unfold trim at hc
    rw [List.head?_reverse] at hc
    have hne : (l.dropWhile isWhite).reverse.dropWhile isWhite ≠ [] := by
      intro he
      rw [he] at hc
      simp at hc
    rw [getLast?_dropWhile_of_ne_nil _ _ hne, List.getLast?_reverse] at hc
    exact head?_dropWhile_nonwhite _ _ hc
  · intro c hc
    unfold trim at hc
    rw [List.getLast?_reverse] at hc
    exact head?_dropWhile_nonwhite _ _ hc

theorem dropWhile_of_head_nonwhite (l : List Char)
    (h : ∀ c, l.head? = some c → isWhite c = false) :
    l.dropWhile isWhite = l := by
  cases l with
  | nil => rfl
  | cons c rest =>
    have := h c rfl
    rw [List.dropWhile_cons_of_neg (by simp [this])]

theorem trim_of_noWhiteEdges (l : List Char) (h : noWhiteEdges l) :
    trim l = l := by
  unfold trim
  rw [dropWhile_of_head_nonwhite l h.1]
  rw [dropWhile_of_head_nonwhite l.reverse
    (by intro c hc; rw [List.head?_reverse] at hc; exact h.2 c hc)]
  exact List.reverse_reverse l

theorem noWhiteEdges_nil : noWhiteEdges [] := by
  constructor <;> intro c hc <;> simp at hc

theorem trim_nil : trim [] = [] := rfl

/-! ### Lemmas about `sentenceJoin` and the split scanner -/

theorem isEmpty_true_iff (l : List Char) : l.isEmpty = true ↔ l = [] := by
  cases l <;> simp

theorem sentenceJoin_cons (c s : List Char) (ss : List (List Char)) :
    sentenceJoin c (s :: ss) =
      if (trim s).isEmpty then sentenceJoin c ss
      else if c.isEmpty then sentenceJoin (trim s) ss
      else sentenceJoin (c ++ ' ' :: trim s) ss := rfl

theorem sentenceJoin_length_ge (ss : List (List Char)) :
    ∀ c : List Char, c.length ≤ (sentenceJoin c ss).length := by
  induction ss with
  | nil => intro c; exact le_refl _
  | cons s ss ih =>
    intro c
    rw [sentenceJoin_cons]
    by_cases h1 : (trim s).isEmpty = true
    · rw [if_pos h1]; exact ih c
    · rw [if_neg h1]
      by_cases h2 : c.isEmpty = true
      · rw [if_pos h2, (isEmpty_true_iff c).1 h2]
        simp
      · rw [if_neg h2]
        calc c.length ≤ (c ++ ' ' :: trim s).length := by simp
          _ ≤ _ := ih _

theorem sentenceJoin_single_length (c s : List Char) :
    (sentenceJoin c [s]).length ≤
      c.length + (if c.isEmpty then 0 else 1) + s.length := by
  rw [sentenceJoin_cons]
  by_cases h1 : (trim s).isEmpty = true
  · rw [if_pos h1]
    simp only [sentenceJoin]
    by_cases h2 : c.isEmpty = true
    · rw [if_pos h2]; omega
    · rw [if_neg h2]; omega
  · rw [if_neg h1]
    by_cases h2 : c.isEmpty = true
    · rw [if_pos h2, if_pos h2, (isEmpty_true_iff c).1 h2]
      simp only [sentenceJoin, List.length_nil]
      have := trim_length_le s
      omega
    · rw [if_neg h2, if_neg h2]
      simp only [sentenceJoin, List.length_append, List.length_cons]
      have := trim_length_le s
      omega

theorem splitGo_join_length :
    ∀ (l acc : List Char) (m : ScanMode) (c : List Char),
    (sentenceJoin c (splitGo l acc m)).length ≤
      c.length + (if c.isEmpty then 0 else 1) + acc.length + l.length +
        (match m with | .punctRun run => run.length | _ => 0) := by
  intro l
  induction l with
  | nil =>
    intro acc m c
    cases m with
    | normal =>
      have h := sentenceJoin_single_length c acc.reverse
      simp only [splitGo, List.length_reverse] at h ⊢
      omega
    | punctRun run =>
      have h := sentenceJoin_single_length c (acc.reverse ++ run.reverse)
      simp only [splitGo, List.length_append, List.length_reverse] at h ⊢
      omega
    | white =>
      have h := sentenceJoin_single_length c acc.reverse
      simp only [splitGo, List.length_reverse] at h ⊢
      omega
  | cons ch rest ih =>
    intro acc m c
    cases m with
    | normal =>
      cases hp : isSentencePunct ch with
      | true =>
        simp only [splitGo, hp, if_true]
        have h := ih acc (.punctRun [ch]) c
        simp only [List.length_cons, List.length_nil] at h ⊢
        omega
      | false =>
        simp only [splitGo, hp, Bool.false_eq_true, if_false]
        have h := ih (ch :: acc) .normal c
        simp only [List.length_cons] at h ⊢
        omega
    | punctRun run =>
      cases hp : isSentencePunct ch with
      | true =>
        simp only [splitGo, hp, if_true]
        have h := ih acc (.punctRun (ch :: run)) c
        simp only [List.length_cons] at h ⊢
        omega
      | false =>
        cases hw : isWhite ch with
        | true =>
          simp only [splitGo, hp, hw, Bool.false_eq_true, if_false, if_true]
          rw [sentenceJoin_cons]
          by_cases h1 : (trim acc.reverse).isEmpty = true
          · rw [if_pos h1]
            have h := ih [] .white c
            simp only [List.length_nil, List.length_cons] at h ⊢
            omega
          · rw [if_neg h1]
            by_cases h2 : c.isEmpty = true
            · rw [if_pos h2]
              have h := ih [] .white (trim acc.reverse)
              rw [if_neg h1] at h
              have htl : (trim acc.reverse).length ≤ acc.length := by
                have := trim_length_le acc.reverse
                simpa using this
              rw [if_pos h2, (isEmpty_true_iff c).1 h2]
              simp only [List.length_nil, List.length_cons] at h ⊢
              omega
            · rw [if_neg h2]
              have h := ih [] .white (c ++ ' ' :: trim acc.reverse)
              have hne : ((c ++ ' ' :: trim acc.reverse).isEmpty = true) ↔ False := by
                rw [isEmpty_true_iff]
                simp
              rw [if_neg (by simp [hne])] at h
              have htl : (trim acc.reverse).length ≤ acc.length := by
                have := trim_length_le acc.reverse
                simpa using this
              rw [if_neg h2]
              simp only [List.length_nil, List.length_cons,
                List.length_append] at h ⊢
              omega
        | false =>
          simp only [splitGo, hp, hw, Bool.false_eq_true, if_false]
          have h := ih (ch :: (run ++ acc)) .normal c
          simp only [List.length_cons, List.length_append] at h ⊢
          omega
    | white =>
      cases hw : isWhite ch with
      | true =>
        simp only [splitGo, hw, if_true]
        have h := ih acc .white c
        simp only [List.length_cons] at h ⊢
        omega
      | false =>
        cases hp : isSentencePunct ch with
        | true =>
          simp only [splitGo, hp, hw, Bool.false_eq_true, if_false, if_true]
          have h := ih acc (.punctRun [ch]) c
          simp only [List.length_cons, List.length_nil] at h ⊢
          omega
        | false =>
          simp only [splitGo, hp, hw, Bool.false_eq_true, if_false]
          have h := ih (ch :: acc) .normal c
          simp only [List.length_cons] at h ⊢
          omega

theorem foldl_chunkStep_small (sz ov : Nat) :
    ∀ (ss : List (List Char)) (chunks : List (List Char)) (c : List Char),
    (sentenceJoin c ss).length ≤ sz →
    ss.foldl (chunkStep sz ov) ⟨chunks, c⟩ = ⟨chunks, sentenceJoin c ss⟩ := by
  intro ss
  induction ss with
  | nil => intro chunks c _; rfl
  | cons s ss ih =>
    intro chunks c h
    rw [List.foldl_cons]
    by_cases h1 : (trim s).isEmpty = true
    · have hstep : chunkStep sz ov ⟨chunks, c⟩ s = ⟨chunks, c⟩ := by
        simp only [chunkStep, h1, if_true]
      rw [hstep, sentenceJoin_cons, if_pos h1]
      refine ih chunks c ?_
      rw [sentenceJoin_cons, if_pos h1] at h
      exact h
    · have hbound : c.length + (trim s).length ≤ sz := by
        have hj : c.length + (trim s).length ≤
            (sentenceJoin c (s :: ss)).length := by
          rw [sentenceJoin_cons, if_neg h1]
          by_cases h2 : c.isEmpty = true
          · obtain hc := (isEmpty_true_iff c).1 h2
            subst hc
            rw [if_pos h2]
            simp only [List.length_nil, Nat.zero_add]
            exact sentenceJoin_length_ge ss _
          · rw [if_neg h2]
            calc c.length + (trim s).length ≤ (c ++ ' ' :: trim s).length := by
                  simp only [List.length_append, List.length_cons]
                  omega
              _ ≤ _ := sentenceJoin_length_ge ss _
        exact le_trans hj h
      have hstep : chunkStep sz ov ⟨chunks, c⟩ s =
          ⟨chunks, c ++ (if c.isEmpty then trim s else ' ' :: trim s)⟩ := by
        simp only [chunkStep, h1, Bool.false_eq_true, if_false]
        rw [if_neg (not_lt.2 hbound)]
      rw [hstep]
      by_cases h2 : c.isEmpty = true
      · obtain hc := (isEmpty_true_iff c).1 h2
        subst hc
        rw [if_pos h2, List.nil_append, sentenceJoin_cons, if_neg h1,
          if_pos h2]
        refine ih chunks (trim s) ?_
        rw [sentenceJoin_cons, if_neg h1, if_pos h2] at h
        exact h
      · rw [if_neg h2, sentenceJoin_cons, if_neg h1, if_neg h2]
        refine ih chunks (c ++ ' ' :: trim s) ?_
        rw [sentenceJoin_cons, if_neg h1, if_neg h2] at h
        exact h

theorem sentenceJoin_noWhiteEdges (ss : List (List Char)) :
    ∀ c, noWhiteEdges c → noWhiteEdges (sentenceJoin c ss) := by
  induction ss with
  | nil => intro c h; exact h
  | cons s ss ih =>
    intro c h
    rw [sentenceJoin_cons]
    by_cases h1 : (trim s).isEmpty = true
    · rw [if_pos h1]; exact ih c h
    · rw [if_neg h1]
      by_cases h2 : c.isEmpty = true
      · rw [if_pos h2]; exact ih _ (trim_noWhiteEdges s)
      · rw [if_neg h2]
        have hc : c ≠ [] := fun he => h2 (by rw [he]; rfl)
        have hts : trim s ≠ [] := fun he => h1 (by rw [he]; rfl)
        refine ih _ ⟨?_, ?_⟩
        · intro d hd
          rw [List.head?_append] at hd
          cases hcc : c.head? with
          | none =>
            cases c with
            | nil => exact absurd rfl hc
            | cons x xs => simp at hcc
          | some d' =>
            rw [hcc] at hd
            rw [Option.or_some] at hd
            have : d' = d := by simpa using hd
            subst this
            exact h.1 d' hcc
        · intro d hd
          rw [List.getLast?_append] at hd
          have hlast : (' ' :: trim s).getLast? = (trim s).getLast? := by
            cases hts' : trim s with
            | nil => exact absurd hts' hts
            | cons x xs => rw [List.getLast?_cons_cons]
          rw [hlast] at hd
          cases hgl : (trim s).getLast? with
          | none =>
            cases hts'' : trim s with
            | nil => exact absurd hts'' hts
            | cons x xs =>
              rw [hts''] at hgl
              simp [List.getLast?] at hgl
          | some d' =>
            rw [hgl] at hd
            have : d' = d := by simpa using hd
            subst this
            exact (trim_noWhiteEdges s).2 d' hgl

/-! ### Claim C1: chunking a text shorter than the chunk size -/

/-- C1 (amended): for a text shorter than the 1000-character chunk size the
loop never closes a chunk, so `chunkText` yields exactly one chunk — the
single-space join of the trimmed sentences (the sentence-terminal punctuation
and inter-sentence whitespace are consumed by the split) — when that join is
longer than 50 characters, and no chunk otherwise. -/
theorem chunkText_small (text : List Char) (h : text.length < 1000) :
    chunkText text =
      if 50 < (sentenceJoin [] (splitSentences text)).length
      then [sentenceJoin [] (splitSentences text)] else [] := by
  have hlen : (sentenceJoin [] (splitSentences text)).length ≤ 1000 := by
    have hb := splitGo_join_length text [] .normal []
    unfold splitSentences
    simp at hb
    omega
  have hloop : chunkLoop text 1000 200 =
      ⟨[], sentenceJoin [] (splitSentences text)⟩ := by
    unfold chunkLoop
    exact foldl_chunkStep_small 1000 200 (splitSentences text) [] [] hlen
  have htrim : trim (sentenceJoin [] (splitSentences text)) =
      sentenceJoin [] (splitSentences text) :=
    trim_of_noWhiteEdges _ (sentenceJoin_noWhiteEdges _ _ noWhiteEdges_nil)
  unfold chunkText chunksBeforeFilter
  rw [hloop]
  simp only [htrim]
  by_cases hJ : (sentenceJoin [] (splitSentences text)).isEmpty = true
  · rw [if_pos hJ]
    obtain hJ' := (isEmpty_true_iff _).1 hJ
    rw [hJ']
    simp
  · rw [if_neg hJ]
    by_cases h50 : 50 < (sentenceJoin [] (splitSentences text)).length
    · rw [if_pos h50]
      simp [List.filter, h50]
    · rw [if_neg h50]
      simp [List.filter, h50]

set_option maxRecDepth 4000 in
theorem chunkText_small_cex :
    ("This is the first sentence. This is the second sentence.".toList).length
        < 1000 ∧
    trim "This is the first sentence. This is the second sentence.".toList =
      "This is the first sentence. This is the second sentence.".toList ∧
    50 < ("This is the first sentence. This is the second sentence.".toList).length ∧
    chunkText "This is the first sentence. This is the second sentence.".toList ≠
      ["This is the first sentence. This is the second sentence.".toList] := by
  decide

set_option maxRecDepth 4000 in
theorem chunkText_small_witness :
    chunkText "The quick brown fox jumps over the lazy sleeping dog today".toList =
      [sentenceJoin []
        (splitSentences
          "The quick brown fox jumps over the lazy sleeping dog today".toList)] := by
  have h := chunkText_small
    "The quick brown fox jumps over the lazy sleeping dog today".toList
    (by decide)
  rw [h, if_pos (by decide)]

/-! ### Claim C5: sentence coverage of the produced chunks -/

theorem SegIn_refl (t : List Char) : SegIn t t := ⟨[], [], by simp⟩

theorem SegIn_append_left (t l r : List Char) (h : SegIn t l) :
    SegIn t (l ++ r) := by
  obtain ⟨u, v, rfl⟩ := h
  exact ⟨u, v ++ r, by simp⟩

theorem SegIn_suffix (t x : List Char) : SegIn t (x ++ t) := ⟨x, [], by simp⟩

theorem SegIn_sep_suffix (t x : List Char) : SegIn t (x ++ ' ' :: t) :=
  ⟨x ++ [' '], [], by simp⟩

theorem SegIn_reverse (t l : List Char) (h : SegIn t l) :
    SegIn t.reverse l.reverse := by
  obtain ⟨u, v, rfl⟩ := h
  exact ⟨v.reverse, u.reverse, by simp⟩

theorem SegIn_ne_nil (t l : List Char) (h : SegIn t l) (ht : t ≠ []) :
    l ≠ [] := by
  obtain ⟨u, v, rfl⟩ := h
  intro he
  rcases List.append_eq_nil.1 he with ⟨h1, -⟩
  rcases List.append_eq_nil.1 h1 with ⟨-, h2⟩
  exact ht h2

theorem SegIn_dropWhile (t : List Char) (ht : t ≠ [])
    (hh : ∀ c, t.head? = some c → isWhite c = false) :
    ∀ l, SegIn t l → SegIn t (l.dropWhile isWhite) := by
  intro l
  induction l with
  | nil => intro h; simpa using h
  | cons c rest ih =>
    intro h
    cases hw : isWhite c with
    | false => rw [List.dropWhile_cons_of_neg (by simp [hw])]; exact h
    | true =>
      rw [List.dropWhile_cons_of_pos hw]
      obtain ⟨u, v, he⟩ := h
      cases u with
      | nil =>
        cases t with
        | nil => exact absurd rfl ht
        | cons tc tt =>
          simp only [List.nil_append, List.cons_append, List.cons.injEq] at he
          obtain ⟨rfl, -⟩ := he
          have := hh c rfl
          rw [hw] at this
          cases this
      | cons uc u' =>
        simp only [List.cons_append, List.cons.injEq] at he
        obtain ⟨-, he'⟩ := he
        exact ih ⟨u', v, he'⟩

theorem SegIn_trim (t l : List Char) (ht : t ≠ []) (hedge : noWhiteEdges t)
    (h : SegIn t l) : SegIn t (trim l) := by
  unfold trim
  have h1 := SegIn_dropWhile t ht hedge.1 l h
  have h2 := SegIn_reverse _ _ h1
  have h3 : SegIn t.reverse
      ((l.dropWhile isWhite).reverse.dropWhile isWhite) := by
    refine SegIn_dropWhile t.reverse (by simp [ht]) ?_ _ h2
    intro c hc
    rw [List.head?_reverse] at hc
    exact hedge.2 c hc
  have h4 := SegIn_reverse _ _ h3
  rw [List.reverse_reverse] at h4
  exact h4

theorem chunkStep_preserves (sz ov : Nat) (st : ChunkState) (s t : List Char)
    (ht : t ≠ []) (hedge : noWhiteEdges t) (h : CoveredIn t st) :
    CoveredIn t (chunkStep sz ov st s) := by
  by_cases h1 : (trim s).isEmpty = true
  · have hstep : chunkStep sz ov st s = st := by
      simp only [chunkStep, h1, if_true]
    rw [hstep]
    exact h
  · by_cases hover : sz < st.currentChunk.length + (trim s).length
    · by_cases hemp : st.currentChunk.isEmpty = true
      · have hstep : chunkStep sz ov st s =
            ⟨st.chunks ++ [trim s], []⟩ := by
          simp only [chunkStep, h1, Bool.false_eq_true, if_false]
          rw [if_pos hover, if_pos hemp]
        rw [hstep]
        rcases h with ⟨ch, hch, hseg⟩ | hseg
        · exact Or.inl ⟨ch, List.mem_append_left _ hch, hseg⟩
        · obtain hc := (isEmpty_true_iff _).1 hemp
          rw [hc] at hseg
          exact absurd rfl (SegIn_ne_nil _ _ hseg ht)
      · have hstep : chunkStep sz ov st s =
            ⟨st.chunks ++ [trim st.currentChunk],
              sliceLast st.currentChunk ov ++ ' ' :: trim s⟩ := by
          simp only [chunkStep, h1, Bool.false_eq_true, if_false]
          rw [if_pos hover, if_neg hemp]
        rw [hstep]
        rcases h with ⟨ch, hch, hseg⟩ | hseg
        · exact Or.inl ⟨ch, List.mem_append_left _ hch, hseg⟩
        · refine Or.inl ⟨trim st.currentChunk,
            List.mem_append_right _ (List.mem_singleton.2 rfl), ?_⟩
          exact SegIn_trim t _ ht hedge hseg
    · have hstep : chunkStep sz ov st s =
          ⟨st.chunks, st.currentChunk ++
            (if st.currentChunk.isEmpty then trim s else ' ' :: trim s)⟩ := by
        simp only [chunkStep, h1, Bool.false_eq_true, if_false]
        rw [if_neg hover]
      rw [hstep]
      rcases h with ⟨ch, hch, hseg⟩ | hseg
      · exact Or.inl ⟨ch, hch, hseg⟩
      · exact Or.inr (SegIn_append_left _ _ _ hseg)

theorem chunkStep_new (sz ov : Nat) (st : ChunkState) (s : List Char)
    (h1 : ¬(trim s).isEmpty = true) :
    CoveredIn (trim s) (chunkStep sz ov st s) := by
  by_cases hover : sz < st.currentChunk.length + (trim s).length
  · by_cases hemp : st.currentChunk.isEmpty = true
    · have hstep : chunkStep sz ov st s = ⟨st.chunks ++ [trim s], []⟩ := by
        simp only [chunkStep, h1, Bool.false_eq_true, if_false]
        rw [if_pos hover, if_pos hemp]
      rw [hstep]
      exact Or.inl ⟨trim s, List.mem_append_right _ (List.mem_singleton.2 rfl),
        SegIn_refl _⟩
    · have hstep : chunkStep sz ov st s =
          ⟨st.chunks ++ [trim st.currentChunk],
            sliceLast st.currentChunk ov ++ ' ' :: trim s⟩ := by
        simp only [chunkStep, h1, Bool.false_eq_true, if_false]
        rw [if_pos hover, if_neg hemp]
      rw [hstep]
      exact Or.inr (SegIn_sep_suffix _ _)
  · have hstep : chunkStep sz ov st s =
        ⟨st.chunks, st.currentChunk ++
          (if st.currentChunk.isEmpty then trim s else ' ' :: trim s)⟩ := by
      simp only [chunkStep, h1, Bool.false_eq_true, if_false]
      rw [if_neg hover]
    rw [hstep]
    by_cases hemp : st.currentChunk.isEmpty = true
    · rw [if_pos hemp]
      exact Or.inr (SegIn_suffix _ _)
    · rw [if_neg hemp]
      exact Or.inr (SegIn_sep_suffix _ _)

theorem foldl_chunkStep_covered (sz ov : Nat) (t : List Char) (ht : t ≠ [])
    (hedge : noWhiteEdges t) :
    ∀ (ss : List (List Char)) (st : ChunkState), CoveredIn t st →
      CoveredIn t (ss.foldl (chunkStep sz ov) st) := by
  intro ss
  induction ss with
  | nil => intro st h; exact h
  | cons s ss ih =>
    intro st h
    rw [List.foldl_cons]
    exact ih _ (chunkStep_preserves sz ov st s t ht hedge h)

theorem foldl_chunkStep_mem (sz ov : Nat) :
    ∀ (ss : List (List Char)) (st : ChunkState) (s : List Char),
      s ∈ ss → ¬(trim s).isEmpty = true →
      CoveredIn (trim s) (ss.foldl (chunkStep sz ov) st) := by
  intro ss
  induction ss with
  | nil => intro st s hs; cases hs
  | cons s0 ss ih =>
    intro st s hs hts
    rw [List.foldl_cons]
    rcases List.mem_cons.1 hs with rfl | hs'
    · refine foldl_chunkStep_covered sz ov (trim s) ?_ (trim_noWhiteEdges s)
        ss _ (chunkStep_new sz ov st s hts)
      exact fun he => hts (by rw [he]; rfl)
    · exact ih _ s hs' hts

theorem chunks_sub_chunksBeforeFilter (text : List Char) (sz ov : Nat)
    (ch : List Char) (h : ch ∈ (chunkLoop text sz ov).chunks) :
    ch ∈ chunksBeforeFilter text sz ov := by
  show ch ∈ (if (trim (chunkLoop text sz ov).currentChunk).isEmpty = true
    then (chunkLoop text sz ov).chunks
    else (chunkLoop text sz ov).chunks ++ [trim (chunkLoop text sz ov).currentChunk])
  split
  · exact h
  · exact List.mem_append_left _ h

/-- C5 (amended): every sentence of the split with a non-empty trimmed form
occurs contiguously in one of the chunks built before the final
`length > 50` filter; the filter discards chunks of at most 50 characters,
so a sentence contained only in such a chunk is absent from the final
output. -/
theorem chunk_coverage (text s : List Char)
    (hs : s ∈ splitSentences text) (ht : trim s ≠ []) :
    ∃ ch ∈ chunksBeforeFilter text 1000 200, SegIn (trim s) ch := by
  have hts : ¬(trim s).isEmpty = true := fun h => ht ((isEmpty_true_iff _).1 h)
  have hcov : CoveredIn (trim s) (chunkLoop text 1000 200) :=
    foldl_chunkStep_mem 1000 200 (splitSentences text) ⟨[], []⟩ s hs hts
  rcases hcov with ⟨ch, hch, hseg⟩ | hseg
  · exact ⟨ch, chunks_sub_chunksBeforeFilter text 1000 200 ch hch, hseg⟩
  · have hseg' := SegIn_trim (trim s) _ ht (trim_noWhiteEdges s) hseg
    have hne : trim (chunkLoop text 1000 200).currentChunk ≠ [] :=
      SegIn_ne_nil _ _ hseg' ht
    refine ⟨trim (chunkLoop text 1000 200).currentChunk, ?_, hseg'⟩
    show _ ∈ (if (trim (chunkLoop text 1000 200).currentChunk).isEmpty = true
      then (chunkLoop text 1000 200).chunks
      else (chunkLoop text 1000 200).chunks ++
        [trim (chunkLoop text 1000 200).currentChunk])
    rw [if_neg (fun hh => hne ((isEmpty_true_iff _).1 hh))]
    exact List.mem_append_right _ (List.mem_singleton.2 rfl)

theorem chunk_coverage_cex :
    "Hi there".toList ∈ splitSentences "Hi there. Bye cat".toList ∧
    trim "Hi there".toList ≠ [] ∧
    ¬ ∃ ch ∈ chunkText "Hi there. Bye cat".toList,
        SegIn (trim "Hi there".toList) ch := by
  refine ⟨by decide, by decide, ?_⟩
  have h : chunkText "Hi there. Bye cat".toList = [] := by decide
  rw [h]
  simp

theorem chunk_coverage_witness :
    ∃ ch ∈ chunksBeforeFilter "Hi there. Bye cat".toList 1000 200,
      SegIn (trim "Hi there".toList) ch :=
  chunk_coverage _ _ (by decide) (by decide)

end MedChat
